import Mathlib

/-!
# Narration sequencer of `TourMapScreen.tsx` — a shallow embedding

This file embeds the narration playback sequencer of the tour-map screen:
the sentence segmentation performed in `handleSelectStop`, the component
state (`sentences`, `currentIdx`, `isSpeaking`, `isPaused`, `selectedStop`),
the operations `playFrom`, `handleSelectStop`, `togglePlayback`,
`stopPlayback`, and the asynchronous completion/error callbacks the code
registers with the speech engine.

Strings are modelled as `List Char` (`Str`).  Calls to the speech engine
(`Speech.speak`, `Speech.pause`, `Speech.stop`) and user-visible alerts are
modelled as an effect list; the `onDone`/`onError` closures the code passes
to `Speech.speak` are modelled as first-class `Callback` values carrying
exactly the data captured by the corresponding JavaScript closures
(`cleanChunks` for the opening utterance, `array` and `index` for
`playFrom`); the mutable flag read at callback-fire time
(`isPausedRef.current`) is read from the component state when the callback
is fired, mirroring the ref.  Mutable refs (`isPausedRef`, `currentIdxRef`)
always mirror the corresponding state in the source (every write updates
both), so the model keeps a single copy.

The map/fetch/PDF parts of the screen and the stop coordinates are plain
UI glue with no bearing on the sequencer and are not modelled.
-/

namespace TourMap

abbrev Str := List Char

/-- Sentence terminators of the segmentation regex `/[^.!?]+[.!?]+/g`. -/
def isTerm (c : Char) : Bool := c == '.' || c == '!' || c == '?'

/-- Whitespace removed by JavaScript `String.prototype.trim`
(the characters relevant to this code base). -/
def isWS (c : Char) : Bool := c == ' ' || c == '\t' || c == '\n' || c == '\r'

/-- Left part of `trim`. -/
def trimLeft (s : Str) : Str := s.dropWhile isWS

/-- Right part of `trim`. -/
def trimRight (s : Str) : Str := (s.reverse.dropWhile isWS).reverse

/-- JavaScript `s.trim()`: drop whitespace from both ends. -/
def trim (s : Str) : Str := trimRight (trimLeft s)

/-- The fallback text used when a stop has no usable description
(`"Sin descripción disponible."` in `handleSelectStop`). -/
def PLACEHOLDER : Str := "Sin descripción disponible.".data

/-- Worker computing the global matches of `/[^.!?]+[.!?]+/g` on a string.
`pre` holds the non-terminator characters of the unit being built, `term`
the terminator run that follows them.  A leading terminator run is skipped
(a match needs at least one non-terminator first), and a trailing fragment
that never reaches a terminator is discarded, exactly as the regex does. -/
def chunksAux : Str → Str → Str → List Str
  | [], _pre, [] => []
  | [], pre, t :: ts => [pre ++ (t :: ts)]
  | c :: cs, pre, term =>
    if isTerm c then
      if pre = [] then chunksAux cs [] []
      else chunksAux cs pre (term ++ [c])
    else
      if term = [] then chunksAux cs (pre ++ [c]) []
      else (pre ++ term) :: chunksAux cs [c] []

/-- `fullText.match(/[^.!?]+[.!?]+/g)`; the empty list plays the role of
the `null` result. -/
def matchChunks (s : Str) : List Str := chunksAux s [] []

/-- Concatenation of a list of strings. -/
def joinAll : List Str → Str
  | [] => []
  | u :: us => u ++ joinAll us

/-- `stop.description?.trim() || "Sin descripción disponible."`. -/
def fullTextOf : Option Str → Str
  | none => PLACEHOLDER
  | some d => if trim d = [] then PLACEHOLDER else trim d

/-- The chunking part of `handleSelectStop` applied to the full text:
`(fullText.match(...) || [fullText]).map(c => c.trim()).filter(c => c.length > 0)`. -/
def segmentText (ft : Str) : List Str :=
  let chunks := match matchChunks ft with
    | [] => [ft]
    | cs => cs
  (chunks.map trim).filter (fun c => !c.isEmpty)

/-- `cleanChunks` as built by `handleSelectStop` from a stop description. -/
def segment (d : Option Str) : List Str := segmentText (fullTextOf d)

/-- A tour stop as consumed by the sequencer.  The coordinate fields of the
source record are floating-point UI data never read by the narration logic
and are omitted. -/
structure Stop where
  id : Str
  title : Str
  description : Option Str
  stop_order : Nat
deriving DecidableEq, Repr

/-- The abstract playback state of the spec. -/
inductive PState where
  | Idle
  | Speaking
  | Paused
deriving DecidableEq, Repr

/-- Component state of `TourMapScreen` relevant to the sequencer. -/
structure CompState where
  selectedStop : Option Stop
  sentences : List Str
  currentIdx : Nat
  isSpeaking : Bool
  isPaused : Bool
deriving DecidableEq, Repr

/-- The abstraction from the two boolean flags to the spec's tri-state,
with the priority the screen itself uses for the play button label
(`isPaused ? "REANUDAR" : isSpeaking ? "PAUSAR" : "REPRODUCIR"`). -/
def pstate (s : CompState) : PState :=
  if s.isPaused = true then PState.Paused
  else if s.isSpeaking = true then PState.Speaking
  else PState.Idle

/-- The completion/error closures registered with `Speech.speak`, carrying
the data each JavaScript closure captures. -/
inductive Callback where
  | initialDone (cleanChunks : List Str)
  | playDone (array : List Str) (index : Nat)
  | initialError
  | playError
deriving DecidableEq, Repr

/-- Externally visible effects: speech-engine calls and alerts. -/
inductive Eff where
  | speak (text : Str) (onDone : Callback) (onError : Callback)
  | enginePause
  | engineStop
  | alert (title : Str) (message : Str)
deriving DecidableEq, Repr

/-- `playFrom(array, index)`; issues at most one utterance, whose `onDone`
recursion is delivered later as a `Callback.playDone`. -/
def playFrom (s : CompState) (array : List Str) (index : Nat) :
    CompState × List Eff :=
  if array.length ≤ index ∨ s.isPaused = true then
    (if array.length ≤ index then { s with isSpeaking := false } else s, [])
  else
    ({ s with currentIdx := index },
     [Eff.speak (trim (array.getD index []))
        (Callback.playDone array index) Callback.playError])

/-- `handleSelectStop(stop)`. -/
def handleSelectStop (_s : CompState) (st : Stop) : CompState × List Eff :=
  let cleanChunks := segment st.description
  ({ selectedStop := some st
     sentences := cleanChunks
     currentIdx := 0
     isSpeaking := true
     isPaused := false },
   [Eff.engineStop,
    Eff.speak (st.title ++ ('.' :: ' ' :: cleanChunks.headD []))
      (Callback.initialDone cleanChunks) Callback.initialError])

/-- `togglePlayback()`. -/
def togglePlayback (s : CompState) : CompState × List Eff :=
  if s.isPaused = true then
    playFrom { s with isPaused := false } s.sentences s.currentIdx
  else
    ({ s with isPaused := true }, [Eff.enginePause])

/-- `stopPlayback()`. -/
def stopPlayback (_s : CompState) : CompState × List Eff :=
  ({ selectedStop := none
     sentences := []
     currentIdx := 0
     isSpeaking := false
     isPaused := false },
   [Eff.engineStop])

/-- Delivery of a speech-engine callback: the body of the corresponding
JavaScript closure, reading `isPausedRef.current` at fire time. -/
def fireCallback (s : CompState) : Callback → CompState × List Eff
  | Callback.initialDone cleanChunks =>
    if 1 < cleanChunks.length ∧ s.isPaused = false then
      playFrom s (cleanChunks.drop 1) 1
    else ({ s with isSpeaking := false }, [])
  | Callback.playDone array index =>
    if s.isPaused = false then playFrom s array (index + 1) else (s, [])
  | Callback.initialError =>
    (s, [Eff.alert "Error".data
          "No se pudo reproducir el audio. Verifica ajustes de voz.".data])
  | Callback.playError =>
    ({ s with isSpeaking := false },
     [Eff.alert "Error de voz".data
        "No se pudo reproducir. Verifica volumen o modo silencio.".data])

/-- An event of the single-threaded UI loop: a user action, or the JS-queue
delivery of a callback the engine has emitted for an earlier utterance. -/
inductive REvent where
  | select (st : Stop)
  | toggle
  | pressStop
  | fire (cb : Callback)
deriving DecidableEq, Repr

/-- One event handled atomically on the UI thread. -/
def stepEv (s : CompState) : REvent → CompState × List Eff
  | REvent.select st => handleSelectStop s st
  | REvent.toggle => togglePlayback s
  | REvent.pressStop => stopPlayback s
  | REvent.fire cb => fireCallback s cb

/-- Run a sequence of events, concatenating the effect logs in order. -/
def runEvents (s : CompState) : List REvent → CompState × List Eff
  | [] => (s, [])
  | e :: es =>
    let r := stepEv s e
    let r2 := runEvents r.1 es
    (r2.1, r.2 ++ r2.2)

/-- The component's initial state (the `useState` initializers). -/
def initState : CompState :=
  { selectedStop := none
    sentences := []
    currentIdx := 0
    isSpeaking := false
    isPaused := false }

/-- A four-unit stop used in the stale-callback scenario. -/
def stopA : Stop :=
  { id := "a".data
    title := "Alfa".data
    description := some "Uno. Dos. Tres. Cuatro.".data
    stop_order := 1 }

/-- A one-unit stop selected while `stopA` is still narrating. -/
def stopB : Stop :=
  { id := "b".data
    title := "Beta".data
    description := some "Otro tema.".data
    stop_order := 2 }

/-- A three-unit stop used to exercise the continuation after the opening
utterance. -/
def stopC : Stop :=
  { id := "c".data
    title := "Parada".data
    description := some "Uno. Dos. Tres.".data
    stop_order := 3 }

/-- The script of `stopA`. -/
def chunksA : List Str :=
  ["Uno.".data, "Dos.".data, "Tres.".data, "Cuatro.".data]

/-- `chunksA.slice(1)`, the array captured by the opening utterance's
`onDone` closure for `stopA`. -/
def tailA : List Str := ["Dos.".data, "Tres.".data, "Cuatro.".data]

/-- Event trace of the race scenario: the user selects `stopA`; the opening
utterance completes, so the sequencer issues the utterance whose `onDone`
closure is `Callback.playDone tailA 1`; that utterance finishes at the
native layer and its completion lands in the JS queue just as the user
selects `stopB`, so it is delivered after `handleSelectStop(stopB)` has
already run (the `Speech.stop()` inside it cannot retract an
already-queued JS callback). -/
def raceTrace : List REvent :=
  [REvent.select stopA,
   REvent.fire (Callback.initialDone chunksA),
   REvent.select stopB,
   REvent.fire (Callback.playDone tailA 1)]

/-- Event trace in which `stopC` is selected and its opening utterance
(title plus first unit) completes normally, with no pause meanwhile. -/
def openTrace : List REvent :=
  [REvent.select stopC,
   REvent.fire (Callback.initialDone ["Uno.".data, "Dos.".data, "Tres.".data])]

/-- A paused state with an empty script and the cursor at 0. -/
def pausedEmpty : CompState :=
  { selectedStop := none
    sentences := []
    currentIdx := 0
    isSpeaking := false
    isPaused := true }

/-- A state paused in the middle of playing a one-unit script. -/
def pausedMid : CompState :=
  { selectedStop := none
    sentences := ["Hola.".data]
    currentIdx := 0
    isSpeaking := true
    isPaused := true }

/-! ## Generic `dropWhile` facts -/

lemma mem_dropWhile_of_neg {α : Type} (p : α → Bool) :
    ∀ (l : List α) (x : α), x ∈ l → p x = false → x ∈ l.dropWhile p := by
  intro l
  induction l with
  | nil => intro x hx _; simp at hx
  | cons a t ih =>
    intro x hx hpx
    rw [List.dropWhile_cons]
    by_cases hpa : p a = true
    · simp only [hpa, if_true]
      rcases List.mem_cons.mp hx with rfl | hxt
      · rw [hpx] at hpa; cases hpa
      · exact ih x hxt hpx
    · simp only [Bool.not_eq_true] at hpa
      simp only [hpa, Bool.false_eq_true, if_false]
      exact hx

lemma head_false_of_dropWhile {α : Type} (p : α → Bool) :
    ∀ (l : List α) (x : α) (xs : List α),
      l.dropWhile p = x :: xs → p x = false := by
  intro l
  induction l with
  | nil => intro x xs h; simp [List.dropWhile] at h
  | cons a t ih =>
    intro x xs h
    rw [List.dropWhile_cons] at h
    by_cases hpa : p a = true
    · simp only [hpa, if_true] at h
      exact ih x xs h
    · simp only [Bool.not_eq_true] at hpa
      simp only [hpa, Bool.false_eq_true, if_false, List.cons.injEq] at h
      rw [← h.1]
      exact hpa

lemma dropWhile_eq_self_of_head {α : Type} (p : α → Bool) (x : α) (xs : List α)
    (h : p x = false) : (x :: xs).dropWhile p = x :: xs := by
  rw [List.dropWhile_cons]
  simp [h]

lemma dropWhile_idem {α : Type} (p : α → Bool) (l : List α) :
    (l.dropWhile p).dropWhile p = l.dropWhile p := by
  cases h : l.dropWhile p with
  | nil => simp
  | cons x xs => exact dropWhile_eq_self_of_head p x xs (head_false_of_dropWhile p l x xs h)

lemma dropWhile_eq_nil_of_all {α : Type} (p : α → Bool) :
    ∀ l : List α, (∀ c ∈ l, p c = true) → l.dropWhile p = [] := by
  intro l
  induction l with
  | nil => intro _; rfl
  | cons a t ih =>
    intro h
    rw [List.dropWhile_cons]
    simp only [h a (List.mem_cons_self a t), if_true]
    exact ih (fun c hc => h c (List.mem_cons_of_mem a hc))

lemma exists_append_dropWhile {α : Type} (p : α → Bool) :
    ∀ l : List α, ∃ t, l = t ++ l.dropWhile p := by
  intro l
  induction l with
  | nil => exact ⟨[], rfl⟩
  | cons a t ih =>
    rw [List.dropWhile_cons]
    by_cases hpa : p a = true
    · obtain ⟨u, hu⟩ := ih
      refine ⟨a :: u, ?_⟩
      simp only [hpa, if_true, List.cons_append]
      exact congrArg (a :: ·) hu
    · simp only [Bool.not_eq_true] at hpa
      exact ⟨[], by simp [hpa]⟩

/-! ## `trim` facts -/

lemma trimLeft_idem (s : Str) : trimLeft (trimLeft s) = trimLeft s :=
  dropWhile_idem isWS s

lemma trimRight_idem (s : Str) : trimRight (trimRight s) = trimRight s := by
  simp only [trimRight, List.reverse_reverse]
  rw [dropWhile_idem]

lemma trimLeft_trimRight (l : Str) (h : trimLeft l = l) :
    trimLeft (trimRight l) = trimRight l := by
  obtain ⟨t, ht⟩ := exists_append_dropWhile isWS l.reverse
  cases hd : (l.reverse.dropWhile isWS).reverse with
  | nil => simp [trimRight, trimLeft, hd]
  | cons x xs =>
    have hl : l = x :: (xs ++ t.reverse) := by
      conv_lhs => rw [← l.reverse_reverse, ht]
      rw [List.reverse_append, hd]
      simp
    have hx : isWS x = false := by
      apply head_false_of_dropWhile isWS l x (xs ++ t.reverse)
      calc l.dropWhile isWS = l := h
        _ = x :: (xs ++ t.reverse) := hl
    show trimLeft ((l.reverse.dropWhile isWS).reverse) = (l.reverse.dropWhile isWS).reverse
    rw [hd]
    exact dropWhile_eq_self_of_head isWS x xs hx

lemma trim_idem (s : Str) : trim (trim s) = trim s := by
  show trimRight (trimLeft (trimRight (trimLeft s))) = trimRight (trimLeft s)
  rw [trimLeft_trimRight (trimLeft s) (trimLeft_idem s)]
  exact trimRight_idem (trimLeft s)

lemma mem_trim (s : Str) (x : Char) (hx : x ∈ s) (hws : isWS x = false) :
    x ∈ trim s := by
  show x ∈ ((s.dropWhile isWS).reverse.dropWhile isWS).reverse
  rw [List.mem_reverse]
  apply mem_dropWhile_of_neg isWS _ x _ hws
  rw [List.mem_reverse]
  exact mem_dropWhile_of_neg isWS s x hx hws

lemma trim_ne_nil_of_mem (s : Str) (x : Char) (hx : x ∈ s)
    (hws : isWS x = false) : trim s ≠ [] :=
  List.ne_nil_of_mem (mem_trim s x hx hws)

/-! ## Chunk structure facts -/

lemma isWS_eq_false_of_isTerm (c : Char) (h : isTerm c = true) :
    isWS c = false := by
  have : (c = '.' ∨ c = '!') ∨ c = '?' := by
    simpa [isTerm] using h
  rcases this with (rfl | rfl) | rfl <;> rfl

lemma chunksAux_ends_term :
    ∀ (s pre tm : Str), (∀ c ∈ tm, isTerm c = true) →
      ∀ u ∈ chunksAux s pre tm, ∃ v c, u = v ++ [c] ∧ isTerm c = true := by
  intro s
  induction s with
  | nil =>
    intro pre tm htm u hu
    cases tm with
    | nil => simp [chunksAux] at hu
    | cons t ts =>
      simp only [chunksAux, List.mem_singleton] at hu
      subst hu
      have hne : (t :: ts) ≠ [] := by simp
      refine ⟨pre ++ (t :: ts).dropLast, (t :: ts).getLast hne, ?_, ?_⟩
      · rw [List.append_assoc, List.dropLast_append_getLast hne]
      · exact htm _ (List.getLast_mem hne)
  | cons c cs ih =>
    intro pre tm htm u hu
    by_cases hc : isTerm c = true
    · by_cases hp : pre = []
      · simp only [chunksAux, hc, if_true, hp] at hu
        exact ih [] [] (by simp) u hu
      · simp only [chunksAux, hc, if_true, hp, if_false] at hu
        refine ih pre (tm ++ [c]) ?_ u hu
        intro x hx
        rcases List.mem_append.mp hx with h1 | h2
        · exact htm x h1
        · have : x = c := by simpa using h2
          rw [this]; exact hc
    · by_cases ht : tm = []
      · simp [chunksAux, hc, ht] at hu
        exact ih (pre ++ [c]) [] (by simp) u hu
      · simp [chunksAux, hc, ht] at hu
        rcases hu with hu1 | hu2
        · subst hu1
          refine ⟨pre ++ tm.dropLast, tm.getLast ht, ?_, ?_⟩
          · rw [List.append_assoc, List.dropLast_append_getLast ht]
          · exact htm _ (List.getLast_mem ht)
        · exact ih [c] [] (by simp) u hu2

lemma matchChunks_ends_term (s : Str) :
    ∀ u ∈ matchChunks s, ∃ v c, u = v ++ [c] ∧ isTerm c = true :=
  chunksAux_ends_term s [] [] (by simp)

lemma chunksAux_recon :
    ∀ (s pre tm : Str),
      (∀ c ∈ pre, isTerm c = false) → (∀ c ∈ tm, isTerm c = true) →
      (pre = [] → tm = []) →
      ∃ lead trail,
        pre ++ tm ++ s = lead ++ joinAll (chunksAux s pre tm) ++ trail ∧
        (pre ≠ [] → lead = []) ∧
        (∀ c ∈ lead, isTerm c = true) ∧ (∀ c ∈ trail, isTerm c = false) := by
  intro s
  induction s with
  | nil =>
    intro pre tm hpre htm _hinv
    cases tm with
    | nil =>
      refine ⟨[], pre, by simp [chunksAux, joinAll], fun _ => rfl, by simp, hpre⟩
    | cons t ts =>
      refine ⟨[], [], ?_, fun _ => rfl, by simp, by simp⟩
      simp [chunksAux, joinAll]
  | cons c cs ih =>
    intro pre tm hpre htm hinv
    by_cases hc : isTerm c = true
    · by_cases hp : pre = []
      · have htm0 : tm = [] := hinv hp
        subst hp; subst htm0
        obtain ⟨lead, trail, heq, _hld, hlead, htrail⟩ :=
          ih [] [] (by simp) (by simp) (by simp)
        simp only [List.nil_append] at heq
        refine ⟨c :: lead, trail, ?_, ?_, ?_, htrail⟩
        · simp only [chunksAux, hc, if_true, List.nil_append, List.cons_append]
          exact congrArg (c :: ·) heq
        · intro h; cases h rfl
        · intro x hx
          rcases List.mem_cons.mp hx with rfl | hxl
          · exact hc
          · exact hlead x hxl
      · obtain ⟨lead, trail, heq, hld, _hlead, htrail⟩ :=
          ih pre (tm ++ [c])
            hpre
            (by
              intro x hx
              rcases List.mem_append.mp hx with h1 | h2
              · exact htm x h1
              · have : x = c := by simpa using h2
                rw [this]; exact hc)
            (fun h => absurd h hp)
        have hlead0 : lead = [] := hld hp
        subst hlead0
        refine ⟨[], trail, ?_, fun _ => rfl, by simp, htrail⟩
        simp only [chunksAux, hc, if_true, hp, if_false, List.nil_append] at heq ⊢
        calc pre ++ tm ++ c :: cs = pre ++ (tm ++ [c]) ++ cs := by simp
          _ = joinAll (chunksAux cs pre (tm ++ [c])) ++ trail := heq
    · by_cases ht : tm = []
      · subst ht
        obtain ⟨lead, trail, heq, hld, _hlead, htrail⟩ :=
          ih (pre ++ [c]) []
            (by
              intro x hx
              rcases List.mem_append.mp hx with h1 | h2
              · exact hpre x h1
              · have : x = c := by simpa using h2
                rw [this]
                simpa using hc)
            (by simp)
            (by simp)
        have hlead0 : lead = [] := hld (by simp)
        subst hlead0
        refine ⟨[], trail, ?_, fun _ => rfl, by simp, htrail⟩
        simp only [chunksAux, hc, if_false, if_true, List.nil_append,
          List.append_nil] at heq ⊢
        calc pre ++ c :: cs = (pre ++ [c]) ++ cs := by simp
          _ = joinAll (chunksAux cs (pre ++ [c]) []) ++ trail := heq
      · obtain ⟨lead, trail, heq, hld, _hlead, htrail⟩ :=
          ih [c] []
            (by
              intro x hx
              have : x = c := by simpa using hx
              rw [this]
              simpa using hc)
            (by simp)
            (by simp)
        have hlead0 : lead = [] := hld (by simp)
        subst hlead0
        simp only [List.nil_append, List.singleton_append] at heq
        refine ⟨[], trail, ?_, fun _ => rfl, by simp, htrail⟩
        simp only [chunksAux, hc, if_false, ht, List.nil_append, joinAll]
        calc pre ++ tm ++ c :: cs
            = (pre ++ tm) ++ (c :: cs) := by simp
          _ = (pre ++ tm) ++ (joinAll (chunksAux cs [c] []) ++ trail) := by
              rw [← heq]
          _ = (pre ++ tm) ++ joinAll (chunksAux cs [c] []) ++ trail := by simp

lemma matchChunks_recon (s : Str) :
    ∃ lead trail,
      s = lead ++ joinAll (matchChunks s) ++ trail ∧
      (∀ c ∈ lead, isTerm c = true) ∧ (∀ c ∈ trail, isTerm c = false) := by
  obtain ⟨lead, trail, heq, _, hlead, htrail⟩ :=
    chunksAux_recon s [] [] (by simp) (by simp) (by simp)
  exact ⟨lead, trail, by simpa using heq, hlead, htrail⟩

/-! ## Segmentation facts -/

lemma trim_placeholder : trim PLACEHOLDER = PLACEHOLDER := by decide

lemma fullTextOf_trim_ne (d : Option Str) : trim (fullTextOf d) ≠ [] := by
  cases d with
  | none => show trim PLACEHOLDER ≠ []; decide
  | some x =>
    show trim (if trim x = [] then PLACEHOLDER else trim x) ≠ []
    by_cases h : trim x = []
    · simp only [h, if_true]; decide
    · simp only [h, if_false]
      rw [trim_idem]
      exact h

lemma segmentText_props (ft : Str) (h : trim ft ≠ []) :
    segmentText ft ≠ [] ∧ ∀ u ∈ segmentText ft, u ≠ [] ∧ trim u = u := by
  cases hm : matchChunks ft with
  | nil =>
    have hseg : segmentText ft = [trim ft] := by
      simp [segmentText, hm, List.isEmpty_iff, h]
    rw [hseg]
    refine ⟨by simp, ?_⟩
    intro u hu
    have hu' : u = trim ft := by simpa using hu
    subst hu'
    exact ⟨h, trim_idem ft⟩
  | cons k ks =>
    have hterm : ∀ u ∈ (k :: ks), ∃ v c, u = v ++ [c] ∧ isTerm c = true := by
      intro u hu
      exact matchChunks_ends_term ft u (hm ▸ hu)
    have htr : ∀ u ∈ (k :: ks), trim u ≠ [] := by
      intro u hu
      obtain ⟨v, c, rfl, hc⟩ := hterm u hu
      exact trim_ne_nil_of_mem _ c (by simp) (isWS_eq_false_of_isTerm c hc)
    have hfil : ((k :: ks).map trim).filter (fun c => !c.isEmpty) =
        (k :: ks).map trim := by
      rw [List.filter_eq_self]
      intro a ha
      obtain ⟨u, hu, rfl⟩ := List.mem_map.mp ha
      simpa [List.isEmpty_iff] using htr u hu
    have hseg : segmentText ft = (k :: ks).map trim := by
      simp only [segmentText, hm]
      exact hfil
    rw [hseg]
    refine ⟨by simp, ?_⟩
    intro u hu
    obtain ⟨w, hw, rfl⟩ := List.mem_map.mp hu
    exact ⟨htr w hw, trim_idem w⟩

lemma segment_props (d : Option Str) :
    segment d ≠ [] ∧ ∀ u ∈ segment d, u ≠ [] ∧ trim u = u :=
  segmentText_props (fullTextOf d) (fullTextOf_trim_ne d)

lemma segmentText_of_matched (ft k : Str) (ks : List Str)
    (hm : matchChunks ft = k :: ks) :
    segmentText ft = ((matchChunks ft).map trim).filter (fun c => !c.isEmpty) := by
  simp only [segmentText, hm]

/-! ## Claims -/

/-- C3: for every stop and every prior playback state, `handleSelectStop`
first cancels any in-flight speech at the engine (`Speech.stop` is the
first effect), rebuilds the script from the stop's description, and
establishes cursor 0 and state Speaking (not Paused), discarding the
previous script entirely. -/
theorem selectStop_resets (s : CompState) (st : Stop) :
    handleSelectStop s st =
      ({ selectedStop := some st
         sentences := segment st.description
         currentIdx := 0
         isSpeaking := true
         isPaused := false },
       [Eff.engineStop,
        Eff.speak (st.title ++ ('.' :: ' ' :: (segment st.description).headD []))
          (Callback.initialDone (segment st.description)) Callback.initialError]) ∧
    pstate (handleSelectStop s st).1 = PState.Speaking :=
  ⟨rfl, rfl⟩

/-- C6: from every prior state, `stopPlayback` halts the speech engine
(its only effect is `Speech.stop`) and leaves the sequencer Idle (neither
speaking nor paused) with cursor 0 and an empty script. -/
theorem stopPlayback_resets (s : CompState) :
    stopPlayback s =
      ({ selectedStop := none
         sentences := []
         currentIdx := 0
         isSpeaking := false
         isPaused := false },
       [Eff.engineStop]) ∧
    pstate (stopPlayback s).1 = PState.Idle :=
  ⟨rfl, rfl⟩

/-- C9: for every input description whatsoever (absent, empty,
whitespace-only, with or without terminators), the script built by
selecting a stop has at least one unit, every unit is non-empty and stays
non-empty after trimming, and hence the first unit used in the opening
utterance always exists. -/
theorem script_always_nonempty (s : CompState) (st : Stop) :
    (handleSelectStop s st).1.sentences ≠ [] ∧
    ((handleSelectStop s st).1.sentences.all
        (fun u => !u.isEmpty && !(trim u).isEmpty)) = true ∧
    ((handleSelectStop s st).1.sentences).headD [] ≠ [] := by
  have h := segment_props st.description
  refine ⟨h.1, ?_, ?_⟩
  · rw [List.all_eq_true]
    intro u hu
    obtain ⟨h1, h2⟩ := h.2 u hu
    have h3 : trim u ≠ [] := by rw [h2]; exact h1
    simp [List.isEmpty_iff, h1, h3]
  · cases hseg : segment st.description with
    | nil => exact absurd hseg h.1
    | cons u0 rest =>
      have hm : u0 ∈ segment st.description := by
        rw [hseg]; exact List.mem_cons_self u0 rest
      have h1 := (h.2 u0 hm).1
      show (segment st.description).headD [] ≠ []
      rw [hseg]
      simpa using h1

/-- C10: calling `togglePlayback` in the Idle state does not start
playback: it transitions to Paused, the cursor does not move, and the only
effect is an engine pause (no utterance is issued). -/
theorem toggle_from_idle (s : CompState) (h : pstate s = PState.Idle) :
    togglePlayback s = ({ s with isPaused := true }, [Eff.enginePause]) ∧
    pstate (togglePlayback s).1 = PState.Paused ∧
    (togglePlayback s).1.currentIdx = s.currentIdx := by
  have hp : s.isPaused = false := by
    by_contra hh
    rw [Bool.not_eq_false] at hh
    simp [pstate, hh] at h
  refine ⟨?_, ?_, ?_⟩
  · simp [togglePlayback, hp]
  · simp [togglePlayback, pstate, hp]
  · simp [togglePlayback, hp]

theorem toggle_from_idle_witness :
    pstate initState = PState.Idle ∧
    (togglePlayback initState =
      ({ initState with isPaused := true }, [Eff.enginePause]) ∧
     pstate (togglePlayback initState).1 = PState.Paused ∧
     (togglePlayback initState).1.currentIdx = initState.currentIdx) :=
  ⟨by decide, toggle_from_idle initState (by decide)⟩

/-- C5 counterexample: in the Paused state `pausedEmpty` (reachable by
toggling from Idle), `togglePlayback` does not yield Speaking and issues
no utterance at all — it falls back to Idle — refuting the claim that from
Paused it always yields Speaking and re-issues the unit at the cursor. -/
theorem toggle_paused_counterexample :
    pstate pausedEmpty = PState.Paused ∧
    pstate (togglePlayback pausedEmpty).1 = PState.Idle ∧
    (togglePlayback pausedEmpty).2 = [] := by decide

/-- C5 amended: `togglePlayback` never moves the cursor.  When not paused
(Speaking or Idle) it sets the paused flag, yielding Paused, and only asks
the engine to pause.  When Paused with the speaking flag still set and the
cursor inside the script, it yields Speaking and re-issues the trimmed
unit at the cursor position (not the next one).  When Paused with the
cursor at or past the end of the script, it clears both flags and issues
nothing, yielding Idle. -/
theorem togglePlayback_amended (s : CompState) :
    (togglePlayback s).1.currentIdx = s.currentIdx ∧
    (s.isPaused = false →
      togglePlayback s = ({ s with isPaused := true }, [Eff.enginePause]) ∧
      pstate (togglePlayback s).1 = PState.Paused) ∧
    (s.isPaused = true → s.isSpeaking = true →
      s.currentIdx < s.sentences.length →
      togglePlayback s =
        ({ s with isPaused := false },
         [Eff.speak (trim (s.sentences.getD s.currentIdx []))
            (Callback.playDone s.sentences s.currentIdx) Callback.playError]) ∧
      pstate (togglePlayback s).1 = PState.Speaking) ∧
    (s.isPaused = true → s.sentences.length ≤ s.currentIdx →
      togglePlayback s =
        ({ s with isPaused := false, isSpeaking := false }, [])) := by
  refine ⟨?_, ?_, ?_, ?_⟩
  · by_cases hp : s.isPaused = true
    · by_cases hl : s.sentences.length ≤ s.currentIdx
      · simp [togglePlayback, hp, playFrom, hl]
      · simp [togglePlayback, hp, playFrom, hl]
    · simp [togglePlayback, hp]
  · intro hp
    constructor
    · simp [togglePlayback, hp]
    · simp [togglePlayback, pstate, hp]
  · intro hp hsp hlt
    have hl : ¬ s.sentences.length ≤ s.currentIdx := by omega
    constructor
    · simp [togglePlayback, hp, playFrom, hl]
    · simp [togglePlayback, hp, playFrom, hl, pstate, hsp]
  · intro hp hl
    simp [togglePlayback, hp, playFrom, hl]

theorem togglePlayback_amended_witness :
    togglePlayback pausedMid =
      ({ pausedMid with isPaused := false },
       [Eff.speak (trim (pausedMid.sentences.getD pausedMid.currentIdx []))
          (Callback.playDone pausedMid.sentences pausedMid.currentIdx)
          Callback.playError]) ∧
    pstate (togglePlayback pausedMid).1 = PState.Speaking :=
  (togglePlayback_amended pausedMid).2.2.1 rfl rfl (by decide)

/-- C2 counterexample: the input `"a. b"` contains a terminator, yet its
trailing terminator-free fragment `" b"` is lost: segmentation yields the
single unit `"a."`, which does not contain the character `b`. -/
theorem segmentation_trailing_fragment_lost :
    segment (some "a. b".data) = ["a.".data] ∧
    'b' ∈ "a. b".data ∧
    'b' ∉ "a.".data := by decide

/-- C2 amended: for every input containing at least one terminator, the
full text is the trimmed input, segmentation yields at least one unit and
every unit is non-empty (also after trimming); if the regex finds no
chunk, the whole trimmed text is the single unit; otherwise every matched
chunk ends in a terminator and the chunks concatenate to the trimmed
input minus a possibly empty leading run of terminators and minus a
possibly empty trailing fragment containing no terminator — so a trailing
fragment without a terminator is dropped, contrary to the original
claim. -/
theorem segmentation_amended (d : Str) (h : ∃ x ∈ d, isTerm x = true) :
    fullTextOf (some d) = trim d ∧
    segment (some d) ≠ [] ∧
    (segment (some d)).all (fun u => !u.isEmpty && !(trim u).isEmpty) = true ∧
    (matchChunks (trim d) = [] → segment (some d) = [trim d]) ∧
    (∀ u ∈ matchChunks (trim d), ∃ v c, u = v ++ [c] ∧ isTerm c = true) ∧
    (∃ lead trail,
      trim d = lead ++ joinAll (matchChunks (trim d)) ++ trail ∧
      (∀ c ∈ lead, isTerm c = true) ∧ (∀ c ∈ trail, isTerm c = false)) := by
  obtain ⟨x, hx, hxt⟩ := h
  have hws : isWS x = false := isWS_eq_false_of_isTerm x hxt
  have htd : trim d ≠ [] := trim_ne_nil_of_mem d x hx hws
  have hfull : fullTextOf (some d) = trim d := by
    simp [fullTextOf, htd]
  have htt : trim (trim d) ≠ [] := by rw [trim_idem]; exact htd
  have hprops := segmentText_props (trim d) htt
  have hseg : segment (some d) = segmentText (trim d) := by
    show segmentText (fullTextOf (some d)) = segmentText (trim d)
    rw [hfull]
  refine ⟨hfull, ?_, ?_, ?_, matchChunks_ends_term (trim d),
    matchChunks_recon (trim d)⟩
  · rw [hseg]; exact hprops.1
  · rw [hseg, List.all_eq_true]
    intro u hu
    obtain ⟨h1, h2⟩ := hprops.2 u hu
    have h3 : trim u ≠ [] := by rw [h2]; exact h1
    simp [List.isEmpty_iff, h1, h3]
  · intro hm
    rw [hseg]
    simp [segmentText, hm, trim_idem, List.isEmpty_iff, htd]

theorem segmentation_amended_witness :
    fullTextOf (some "Hola. Adios".data) = trim "Hola. Adios".data ∧
    segment (some "Hola. Adios".data) ≠ [] ∧
    segment (some "Hola. Adios".data) = ["Hola.".data] := by
  have h := segmentation_amended "Hola. Adios".data (by decide)
  exact ⟨h.1, h.2.1, by decide⟩

/-- C8 counterexample: for the empty description the single unit produced
is the code's Spanish placeholder, not the string
`"No description available."` stated by the claim. -/
theorem placeholder_language_counterexample :
    segment (some "".data) = ["Sin descripción disponible.".data] ∧
    "Sin descripción disponible.".data ≠ "No description available.".data := by
  decide

/-- C8 amended: for every description that is absent, empty, or
whitespace-only, segmentation produces exactly one unit, the fixed
placeholder string `"Sin descripción disponible."` (the code's Spanish
placeholder). -/
theorem placeholder_amended (d : Option Str)
    (h : ∀ c ∈ d.getD [], isWS c = true) :
    segment d = [PLACEHOLDER] := by
  have hph : segmentText PLACEHOLDER = [PLACEHOLDER] := by decide
  cases d with
  | none => exact hph
  | some x =>
    have h1 : trimLeft x = [] :=
      dropWhile_eq_nil_of_all isWS x (by simpa using h)
    have h2 : trim x = [] := by
      show trimRight (trimLeft x) = []
      rw [h1]
      rfl
    show segmentText (fullTextOf (some x)) = [PLACEHOLDER]
    have h3 : fullTextOf (some x) = PLACEHOLDER := by
      simp [fullTextOf, h2]
    rw [h3]
    exact hph

theorem placeholder_amended_witness :
    segment (some "   ".data) = [PLACEHOLDER] :=
  placeholder_amended (some "   ".data) (by decide)

/-- C1: the code has no guard against a stale completion callback from a
previous stop's playback session.  In `raceTrace`, the utterance issued
during stop A's session carries the completion callback
`Callback.playDone tailA 1` (third effect of the log); when that callback
is delivered after stop B has been selected, the sequencer speaks
`"Cuatro."` — a unit of A's former script, absent from B's script — and
moves the shared cursor to 2, outside B's one-unit script, because the
callback body only checks `isPausedRef` and B's selection reset it to
false.  This refutes the claimed no-op behaviour. -/
theorem stale_callback_advances_bug :
    (runEvents initState raceTrace).2 =
      [Eff.engineStop,
       Eff.speak "Alfa. Uno.".data (Callback.initialDone chunksA)
         Callback.initialError,
       Eff.speak "Tres.".data (Callback.playDone tailA 1) Callback.playError,
       Eff.engineStop,
       Eff.speak "Beta. Otro tema.".data
         (Callback.initialDone ["Otro tema.".data]) Callback.initialError,
       Eff.speak "Cuatro.".data (Callback.playDone tailA 2)
         Callback.playError] ∧
    (runEvents initState raceTrace).1 =
      { selectedStop := some stopB
        sentences := ["Otro tema.".data]
        currentIdx := 2
        isSpeaking := true
        isPaused := false } ∧
    "Cuatro.".data ∈ segment stopA.description ∧
    "Cuatro.".data ∉ segment stopB.description := by decide

/-- C4: after the opening utterance of the three-unit script of `stopC`
completes while the state is still Speaking, the code calls
`playFrom(cleanChunks.slice(1), 1)` and therefore speaks `"Tres."` — the
unit at script index 2 — skipping the unit `"Dos."` at script index 1
which the claim says is spoken next; the cursor is meanwhile set to 1, so
the highlighted unit is not the one being spoken. -/
theorem opening_done_skips_unit_bug :
    segment stopC.description = ["Uno.".data, "Dos.".data, "Tres.".data] ∧
    (runEvents initState openTrace).2 =
      [Eff.engineStop,
       Eff.speak "Parada. Uno.".data
         (Callback.initialDone ["Uno.".data, "Dos.".data, "Tres.".data])
         Callback.initialError,
       Eff.speak "Tres.".data
         (Callback.playDone ["Dos.".data, "Tres.".data] 1)
         Callback.playError] ∧
    (segment stopC.description).getD 1 [] = "Dos.".data ∧
    (segment stopC.description).getD 2 [] = "Tres.".data ∧
    (runEvents initState openTrace).1.currentIdx = 1 ∧
    (runEvents initState openTrace).1.isSpeaking = true := by decide

/-- C7: an error callback of the opening utterance issued by
`handleSelectStop` surfaces the alert but leaves the state Speaking — it
does not force Idle as the claim states — whereas the error callback of a
subsequent unit's utterance does force Idle; neither retries (no speak
effect is issued). -/
theorem opening_error_keeps_speaking_bug :
    pstate (handleSelectStop initState stopA).1 = PState.Speaking ∧
    fireCallback (handleSelectStop initState stopA).1 Callback.initialError =
      ((handleSelectStop initState stopA).1,
       [Eff.alert "Error".data
          "No se pudo reproducir el audio. Verifica ajustes de voz.".data]) ∧
    pstate (fireCallback (handleSelectStop initState stopA).1
        Callback.initialError).1 = PState.Speaking ∧
    fireCallback (handleSelectStop initState stopA).1 Callback.playError =
      ({ (handleSelectStop initState stopA).1 with isSpeaking := false },
       [Eff.alert "Error de voz".data
          "No se pudo reproducir. Verifica volumen o modo silencio.".data]) ∧
    pstate (fireCallback (handleSelectStop initState stopA).1
        Callback.playError).1 = PState.Idle := by decide

end TourMap
